import Mathlib

/-!
Verification development for the `ai-tools-scraper` repository
(`src/scraper.py`).

The development shallowly embeds the two core components of the scraper:

* the text-segmentation functions `parse_metric` and
  `parse_category_list_item` (pure string processing plus Python float
  arithmetic for the metric conversion), and
* the crawl controller `scrape_category_page` /
  `scrape_category_with_pagination` (pagination, per-category URL
  deduplication and termination policy), with the HTTP, URL-resolution
  and enrichment collaborators modelled as explicit function parameters,
  exactly as the specification describes them as external interfaces.

Python strings are modelled as `String` / `List Char` (ASCII behaviour of
`str.split`, `str.strip`, `str.isdigit`; the site text relevant to the
claims is ASCII).  Python `None` is modelled by `Option.none`.  A raised
exception escaping a modelled function is modelled by `Option.none` /
`Except.error` at the function's result type.  Python `float` values are
modelled exactly as IEEE-754 binary64 values (a mantissa/exponent pair or
infinity/NaN) with correctly-rounded conversion and multiplication, since
`parse_metric` computes `int(float(prefix) * multiplier)`.
-/

namespace Scraper

/-! ### Python whitespace primitives

`str.split()` splits on runs of whitespace and drops empty pieces;
`str.strip()` removes leading and trailing whitespace;
`" ".join(...)` interleaves single spaces. -/

/-- Whitespace characters recognised by Python `str.split()` / `str.strip()`
(ASCII range: space, tab, newline, carriage return, vertical tab, form feed). -/
def pyIsSpace (c : Char) : Bool :=
  c = ' ' || c = '\t' || c = '\n' || c = '\r' || c = '\x0b' || c = '\x0c'

/-- Negation of `pyIsSpace`, the predicate delimiting words. -/
def pyNotSpace (c : Char) : Bool := !pyIsSpace c

/-- Dropping a prefix can only shorten a list. -/
theorem length_dropWhile_le {α : Type} (q : α → Bool) :
    ∀ l : List α, (l.dropWhile q).length ≤ l.length := by
  intro l
  induction l with
  | nil => exact Nat.le_refl _
  | cons x l ih =>
    by_cases hx : q x = true
    · rw [List.dropWhile_cons_of_pos hx]
      exact Nat.le_succ_of_le ih
    · rw [Bool.not_eq_true] at hx
      rw [List.dropWhile_cons_of_neg (by simp [hx])]

/-- Python `text.split()` on a character list: the maximal runs of
non-whitespace characters, in order (empty runs never occur).  The
recursion is structural (one character at a time) so that the function
evaluates inside the kernel; `pyWords_cons_nonspace` below restates the
step as taking the maximal non-whitespace run. -/
def pyWords : List Char → List (List Char)
  | [] => []
  | c :: cs =>
    if pyIsSpace c then pyWords cs
    else
      match cs with
      | [] => [[c]]
      | d :: _ =>
        if pyIsSpace d then [c] :: pyWords cs
        else
          match pyWords cs with
          | [] => [[c]]
          | w :: rest => (c :: w) :: rest

/-- Python `" ".join(words)` on character lists. -/
def joinWords : List (List Char) → List Char
  | [] => []
  | [w] => w
  | w :: ws => w ++ ' ' :: joinWords ws

/-- Python `" ".join(text.split())` (whitespace normalization), on chars. -/
def normChars (cs : List Char) : List Char :=
  joinWords (pyWords cs)

/-- Python `" ".join(text.split())` as a `String` function. -/
def normalizeWs (s : String) : String :=
  String.mk (normChars s.data)

/-- Python `text.strip()` on a character list. -/
def pyStripChars (cs : List Char) : List Char :=
  ((cs.dropWhile pyIsSpace).reverse.dropWhile pyIsSpace).reverse

/-- Whether `p` occurs at the start of `s`. -/
def startsWith : List Char → List Char → Bool
  | [], _ => true
  | _ :: _, [] => false
  | p :: ps, c :: cs => p = c && startsWith ps cs

/-- Python `sub in s` and `s.split(sub, 1)` combined: locate the leftmost
occurrence of `pat` in `s` and return the pieces before and after it;
`none` when `pat` does not occur.  `pat` is assumed non-empty (the scraper
only uses the fixed marker `" 1233 "`). -/
def firstSplit (pat : List Char) : List Char → Option (List Char × List Char)
  | [] => none
  | c :: cs =>
    if startsWith pat (c :: cs) then some ([], (c :: cs).drop pat.length)
    else
      match firstSplit pat cs with
      | none => none
      | some (b, a) => some (c :: b, a)

/-! ### Metric token recognition

`parse_category_list_item` tests the last head token against the regex
`^[0-9]+(?:\.[0-9]+)?[KMB]?$` (IGNORECASE); `parse_metric` matches
`^([0-9]+(?:\.[0-9]+)?)([KMB])$` (suffix mandatory).  The character
classes of both regexes are disjoint, so the greedy left-to-right scan
below is exactly the regex match.  (`$` in Python also accepts one
trailing `"\n"`; the tokens tested here come from `str.split()` and are
whitespace-free, so that difference is unreachable.) -/

/-- One of the magnitude suffix letters `K`/`M`/`B`, case-insensitively. -/
def isKMB (c : Char) : Bool :=
  c = 'K' || c = 'M' || c = 'B' || c = 'k' || c = 'm' || c = 'b'

/-- Split a character list into its leading run of ASCII digits and the rest. -/
def spanDigits (cs : List Char) : List Char × List Char :=
  (cs.takeWhile Char.isDigit, cs.dropWhile Char.isDigit)

/-- The regex `^[0-9]+(?:\.[0-9]+)?[KMB]?$` (IGNORECASE) of
`parse_category_list_item`, as a Boolean recogniser. -/
def metricTokenOpt (cs : List Char) : Bool :=
  match spanDigits cs with
  | ([], _) => false
  | (_ :: _, r1) =>
    match r1 with
    | [] => true
    | '.' :: r2 =>
      (match spanDigits r2 with
       | ([], _) => false
       | (_ :: _, []) => true
       | (_ :: _, [c]) => isKMB c
       | (_ :: _, _ :: _ :: _) => false)
    | [c] => isKMB c
    | _ :: _ :: _ => false

/-- The regex `^([0-9]+(?:\.[0-9]+)?)([KMB])$` (IGNORECASE) of
`parse_metric`: integer digits, fractional digits (empty when there is no
fractional part) and the suffix letter, or `none` when the token does not
match. -/
def matchMetricSuffixed (cs : List Char) : Option (List Char × List Char × Char) :=
  match spanDigits cs with
  | ([], _) => none
  | (ip, r1) =>
    match r1 with
    | '.' :: r2 =>
      (match spanDigits r2 with
       | ([], _) => none
       | (fp, [c]) => if isKMB c then some (ip, fp, c) else none
       | (_ :: _, _) => none)
    | [c] => if isKMB c then some (ip, [], c) else none
    | _ => none

/-- Python `text.isdigit()` restricted to ASCII: non-empty and all digits. -/
def pyIsDigitStr (cs : List Char) : Bool :=
  !cs.isEmpty && cs.all Char.isDigit

/-- Value of an ASCII digit string as a natural number (Python `int(text)`
on a digit string). -/
def natFromDigits (cs : List Char) : Nat :=
  cs.foldl (fun n c => 10 * n + (c.toNat - '0'.toNat)) 0

/-! ### IEEE-754 binary64 model

`parse_metric` computes `int(float(prefix) * multiplier)`.  Python floats
are IEEE-754 binary64 values; `float(decimal-string)` is the correctly
rounded (round-to-nearest, ties-to-even) conversion, `*` is correctly
rounded multiplication, and `int(...)` truncates — raising `OverflowError`
on an infinite argument.  All values arising here are non-negative, so the
model carries no sign.  A finite value is `m * 2^e`; zero is `finite 0 0`;
`nan` is included only to keep the multiplication total (`0.0 * inf`),
although that combination is unreachable in the scraper (the multiplier is
always a non-zero finite float). -/

/-- Fuel-driven floor base-2 logarithm; with fuel at least the argument it
computes the floor of the base-2 logarithm by structural recursion (so it
evaluates inside the kernel), consuming 64 bits per step when possible to
keep the recursion shallow. -/
def log2F : Nat → Nat → Nat
  | 0, _ => 0
  | fuel + 1, n =>
    if 2 ^ 64 ≤ n then 64 + log2F fuel (n / 2 ^ 64)
    else if 2 ≤ n then log2F fuel (n / 2) + 1 else 0

/-- Floor base-2 logarithm by structural recursion (`natLog2 0 = 0`). -/
def natLog2 (n : Nat) : Nat := log2F n n

/-- Fuel-driven power of two by binary squaring; with fuel at least the
exponent it computes `2 ^ t` by structural recursion of logarithmic
depth (so large powers evaluate inside the kernel). -/
def pow2F : Nat → Nat → Nat
  | 0, _ => 1
  | fuel + 1, t =>
    if t = 0 then 1
    else
      let h := pow2F fuel (t / 2)
      if t % 2 = 0 then h * h else 2 * (h * h)

/-- The power `2 ^ t` by structural recursion (see `pow2_eq`). -/
def pow2 (t : Nat) : Nat := pow2F t t

/-- `pow2F` computes powers of two once the fuel covers the exponent. -/
theorem pow2F_eq : ∀ fuel t : Nat, t ≤ fuel → pow2F fuel t = 2 ^ t := by
  intro fuel
  induction fuel with
  | zero =>
    intro t ht
    rw [Nat.le_zero.mp ht]
    rfl
  | succ fuel ih =>
    intro t ht
    rcases Nat.eq_zero_or_pos t with h0 | h1
    · rw [h0, pow2F]
      simp
    · have hne : ¬(t = 0) := by omega
      have hh : pow2F fuel (t / 2) = 2 ^ (t / 2) := ih (t / 2) (by omega)
      rw [pow2F]
      simp only [hne, if_false, hh]
      by_cases hp : t % 2 = 0
      · rw [if_pos hp, ← Nat.pow_add]
        congr 1
        omega
      · rw [if_neg hp]
        have h2 : 2 * (2 ^ (t / 2) * 2 ^ (t / 2)) = 2 ^ (t / 2 + t / 2 + 1) := by
          rw [Nat.pow_add, Nat.pow_add]
          ring
        rw [h2]
        congr 1
        omega

/-- `pow2` computes powers of two. -/
theorem pow2_eq (t : Nat) : pow2 t = 2 ^ t := pow2F_eq t t (Nat.le_refl t)

/-- A non-negative Python float: a finite value `m * 2^e`, infinity, or NaN. -/
inductive PyFloat where
  | finite (m : Nat) (e : Int)
  | inf
  | nan
deriving DecidableEq

/-- Round the non-negative rational `a / b` to the nearest binary64 value
(ties to even), with overflow to infinity and gradual underflow to
subnormals, exactly as IEEE-754 round-to-nearest prescribes.

The computation scales `a / b` by `2 ^ t` with `t` large enough that the
integer part `N` of the scaled value always carries more than 53
significant bits, then rounds `N` (plus a sticky bit for the discarded
fraction) at the appropriate bit position. -/
def roundToDouble (a b : Nat) : PyFloat :=
  if b = 0 then .nan
  else if a = 0 then .finite 0 0
  else
    let t : Nat := 1200 + natLog2 b + 1
    let N : Nat := a * pow2 t / b
    let sticky : Bool := decide (a * pow2 t % b ≠ 0)
    let k : Nat := natLog2 N + 1 - 53
    let m0 : Nat := N / pow2 k
    let rem : Nat := N % pow2 k
    let up : Bool :=
      decide (2 * rem > pow2 k) ||
        (decide (2 * rem = pow2 k) && (sticky || decide (m0 % 2 = 1)))
    let m1 : Nat := if up then m0 + 1 else m0
    let em : Nat × Int :=
      if m1 = 2 ^ 53 then (2 ^ 52, (k : Int) - (t : Int) + 1)
      else (m1, (k : Int) - (t : Int))
    if em.2 < -1074 then
      -- subnormal range: round at absolute granularity 2^(-1074)
      let k2 : Nat := t - 1074
      let m0' : Nat := N / pow2 k2
      let rem' : Nat := N % pow2 k2
      let up' : Bool :=
        decide (2 * rem' > pow2 k2) ||
          (decide (2 * rem' = pow2 k2) && (sticky || decide (m0' % 2 = 1)))
      .finite (if up' then m0' + 1 else m0') (-1074)
    else if em.2 > 971 then .inf
    else .finite em.1 em.2

/-- Round `a * 2^e` (`a : Nat`, `e : Int`) to the nearest binary64 value. -/
def roundToDoubleE (a : Nat) (e : Int) : PyFloat :=
  if 0 ≤ e then roundToDouble (a * pow2 e.toNat) 1
  else roundToDouble a (pow2 (-e).toNat)

/-- Python `float(s)` for a decimal literal with integer digits `ip` and
fractional digits `fp` (e.g. `"32.0"` has `ip = "32"`, `fp = "0"`):
the correctly rounded binary64 value of `(ip.fp)`. -/
def floatOfDecimal (ip fp : List Char) : PyFloat :=
  roundToDouble (natFromDigits (ip ++ fp)) (10 ^ fp.length)

/-- Correctly rounded binary64 multiplication of non-negative values.
`0.0 * inf` is NaN; products of finite values are rounded exactly. -/
def pyMul : PyFloat → PyFloat → PyFloat
  | .finite m1 e1, .finite m2 e2 =>
    if m1 = 0 || m2 = 0 then .finite 0 0
    else roundToDoubleE (m1 * m2) (e1 + e2)
  | .finite m _, .inf => if m = 0 then .nan else .inf
  | .inf, .finite m _ => if m = 0 then .nan else .inf
  | .inf, .inf => .inf
  | .nan, _ => .nan
  | _, .nan => .nan

/-- Python `int(x)` on a non-negative float: truncation for finite values;
an infinite or NaN argument raises (`OverflowError` / `ValueError`),
modelled as `none`. -/
def pyInt : PyFloat → Option Int
  | .finite m e =>
    if 0 ≤ e then some ((m * pow2 e.toNat : Nat) : Int)
    else some ((m / pow2 (-e).toNat : Nat) : Int)
  | .inf => none
  | .nan => none

/-- The multiplier dictionary `{"K": 1_000, "M": 1_000_000, "B": 1_000_000_000}`
of `parse_metric`, as the float that Python produces when the int
multiplier meets float multiplication (exact: all three are below `2^53`). -/
def multFloat (c : Char) : PyFloat :=
  if c = 'K' || c = 'k' then roundToDouble 1000 1
  else if c = 'M' || c = 'm' then roundToDouble 1000000 1
  else roundToDouble 1000000000 1

/-! ### The segmentation parser (`parse_metric`, `parse_category_list_item`) -/

/-- Model of `parse_metric(raw)` (src/scraper.py:43-67).  Returns
`some (metric_raw, metric_value)`; `none` models an uncaught
`OverflowError` from `int(num * multiplier)` when the numeric prefix is
large enough that the float product is infinite.  (The `try/except` in the
source only wraps the `int(text)` call of the all-digits branch, which
cannot fail on a digit string.) -/
def parse_metric (raw : String) : Option (Option String × Option Int) :=
  if raw = "" then some (none, none)
  else
    let text := pyStripChars raw.data
    match matchMetricSuffixed text with
    | some (ip, fp, suf) =>
      match pyInt (pyMul (floatOfDecimal ip fp) (multFloat suf)) with
      | some v => some (some (String.mk text), some v)
      | none => none
    | none =>
      if pyIsDigitStr text then some (some (String.mk text), some (natFromDigits text : Int))
      else some (some (String.mk text), none)

/-- Result quadruple of `parse_category_list_item`: Python `None` is
`Option.none`; `description` is a string in every branch except the
empty-input early return, where Python returns `None, None, None, None`. -/
structure ParsedItem where
  name : Option String
  metric_raw : Option String
  metric_value : Option Int
  description : Option String
deriving DecidableEq

/-- The fixed marker `" 1233 "` used by `parse_category_list_item`. -/
def markerL : List Char := [' ', '1', '2', '3', '3', ' ']

/-- Model of `parse_category_list_item(text)` (src/scraper.py:70-105).
`none` models the uncaught `OverflowError` propagating out of
`parse_metric`. -/
def parse_category_list_item (text : String) : Option ParsedItem :=
  if text = "" then some ⟨none, none, none, none⟩
  else
    let normalized : List Char := normChars text.data
    match firstSplit markerL normalized with
    | none => some ⟨some (String.mk normalized), none, none, some ""⟩
    | some (bef, aft) =>
      let description : String := String.mk (pyStripChars aft)
      let parts : List (List Char) := pyWords bef
      match parts.getLast? with
      | none => some ⟨some (String.mk normalized), none, none, some description⟩
      | some last =>
        if metricTokenOpt last then
          match parse_metric (String.mk last) with
          | none => none
          | some (mr, mv) =>
            some ⟨some (String.mk (if parts.length > 1 then joinWords parts.dropLast else bef)),
                  mr, mv, some description⟩
        else
          some ⟨some (String.mk (pyStripChars bef)), none, none, some description⟩

/-! ### The crawl controller

`scrape_category_page` and `scrape_category_with_pagination`
(src/scraper.py:202-298).  The external collaborators are explicit
parameters, as the specification's §6 describes them:

* `fetch : String → PageResult` — the HTTP/HTML collaborator.  For a
  listing URL it either raises after exhausting retries (`fetchError`,
  the `get_soup` exception path), finds no `<h1>`/`<ul>` (`noList`, the
  two early `return []` branches), or yields the anchors of the list
  (`entries`), each carrying its `href` attribute and extracted visible
  text `a.get_text(" ", strip=True)`.
* `resolve : String → String` — `urllib.parse.urljoin BASE_URL` for a
  non-empty href (`make_full_url` returns `None` for an empty href;
  that case is kept in `make_full_url` below).
* `enrich : Option String → Option EnrichData` — `scrape_tool_page` on
  the resolved URL; `none` models the swallowed per-entry enrichment
  failure (the record is still emitted without enrichment fields).
-/

/-- An anchor of the category list: `href` attribute and visible text. -/
structure Anchor where
  href : String
  text : String
deriving DecidableEq

/-- Outcome of fetching one listing page. -/
inductive PageResult where
  | fetchError
  | noList
  | entries (anchors : List Anchor)
deriving DecidableEq

/-- Enrichment data from `scrape_tool_page` (the external tool-page fetch). -/
structure EnrichData where
  page_title : Option String
  page_meta_description : Option String
  image_url : Option String
  tags : List String
deriving DecidableEq

/-- One output record (the dict built in `scrape_category_page`), plus the
enrichment fields added by `record.update(page_data)` when the best-effort
tool-page fetch succeeds. -/
structure ToolRecord where
  category : String
  name : Option String
  metric_raw : Option String
  metric_value_estimate : Option Int
  description_preview : Option String
  url : Option String
  raw_text : String
  enriched : Option EnrichData
deriving DecidableEq

/-- Model of `make_full_url(href)` (src/scraper.py:34-38): `None` for an
empty href, otherwise the resolved absolute URL. -/
def make_full_url (resolve : String → String) (href : String) : Option String :=
  if href = "" then none else some (resolve href)

/-- The per-anchor loop body of `scrape_category_page`
(src/scraper.py:221-250): parse the visible text, resolve the URL, skip
an already-seen URL, otherwise mark it seen, build the record, attempt
enrichment, and append.  `Except.error ()` models the `OverflowError`
that `parse_category_list_item` can raise, which propagates out of
`scrape_category_page` (partial results of the page are discarded). -/
def processAnchors (resolve : String → String) (enrich : Option String → Option EnrichData)
    (slug : String) :
    List Anchor → List (Option String) → Except Unit (List ToolRecord × List (Option String))
  | [], seen => .ok ([], seen)
  | a :: rest, seen =>
    match parse_category_list_item a.text with
    | none => .error ()
    | some p =>
      let tool_url := make_full_url resolve a.href
      if tool_url ∈ seen then processAnchors resolve enrich slug rest seen
      else
        match processAnchors resolve enrich slug rest (tool_url :: seen) with
        | .error e => .error e
        | .ok (ts, seen') =>
          .ok ({ category := slug, name := p.name, metric_raw := p.metric_raw,
                 metric_value_estimate := p.metric_value,
                 description_preview := p.description, url := tool_url,
                 raw_text := a.text, enriched := enrich tool_url } :: ts, seen')

/-- Model of `scrape_category_page(category_slug, url, seen_urls)`
(src/scraper.py:202-252), with the fetch outcome for `url` passed in.
`Except.error ()` is a raised exception (fetch failure after retries, or
`OverflowError` from the parser); a missing `<h1>`/`<ul>` yields `[]`. -/
def scrape_category_page (resolve : String → String)
    (enrich : Option String → Option EnrichData) (slug : String) (pr : PageResult)
    (seen : List (Option String)) :
    Except Unit (List ToolRecord × List (Option String)) :=
  match pr with
  | .fetchError => .error ()
  | .noList => .ok ([], seen)
  | .entries anchors => processAnchors resolve enrich slug anchors seen

/-- The page URL `f"{base_url}?page={page}"`. -/
def pageUrl (base : String) (page : Nat) : String :=
  base ++ "?page=" ++ toString page

/-- A category worklist entry (`{"slug": ..., "url": ...}`). -/
structure Category where
  slug : String
  url : String
deriving DecidableEq

/-- The `while True` loop of `scrape_category_with_pagination`
(src/scraper.py:267-295), with explicit fuel (the Python loop is
unbounded; every theorem below supplies enough fuel for the scenario at
hand, and fuel exhaustion returns the empty remainder).  Returns the
records accumulated from the current page on, together with the list of
URLs requested from the listing source, in order.

Branches, in source order: a raised page fetch is caught and breaks the
loop; a page with zero new entries on page 1 triggers one fallback fetch
of the bare category root (the `base_url != page_url` guard is kept);
if entries remain absent the loop breaks, otherwise they are appended,
and the loop continues with the next page. -/
def crawlLoop (fetch : String → PageResult) (resolve : String → String)
    (enrich : Option String → Option EnrichData) (slug base : String) :
    Nat → Nat → List (Option String) → List ToolRecord × List String
  | 0, _, _ => ([], [])
  | fuel + 1, page, seen =>
    let purl := pageUrl base page
    match scrape_category_page resolve enrich slug (fetch purl) seen with
    | .error _ => ([], [purl])
    | .ok (pageTools, seen1) =>
      if pageTools = [] then
        if page = 1 then
          if base ≠ purl then
            match scrape_category_page resolve enrich slug (fetch base) seen1 with
            | .error _ => ([], [purl, base])
            | .ok (fbTools, seen2) =>
              if fbTools = [] then ([], [purl, base])
              else
                let rec1 := crawlLoop fetch resolve enrich slug base fuel (page + 1) seen2
                (fbTools ++ rec1.1, purl :: base :: rec1.2)
          else ([], [purl])
        else ([], [purl])
      else
        let rec1 := crawlLoop fetch resolve enrich slug base fuel (page + 1) seen1
        (pageTools ++ rec1.1, purl :: rec1.2)

/-- Model of `scrape_category_with_pagination(category)`
(src/scraper.py:255-298): run the loop from page 1 with an empty seen-set. -/
def scrape_category_with_pagination (fetch : String → PageResult)
    (resolve : String → String) (enrich : Option String → Option EnrichData)
    (cat : Category) (fuel : Nat) : List ToolRecord × List String :=
  crawlLoop fetch resolve enrich cat.slug cat.url fuel 1 []

/-- The aggregation loop of the `__main__` block (src/scraper.py:309-311):
each category is crawled with a fresh seen-set and the results are
concatenated (before the final output sort). -/
def scrape_all (fetch : String → PageResult) (resolve : String → String)
    (enrich : Option String → Option EnrichData) (cats : List Category)
    (fuel : Nat) : List ToolRecord :=
  (cats.map (fun c => (scrape_category_with_pagination fetch resolve enrich c fuel).1)).flatten

/-! ### Lemmas about the whitespace primitives -/

/-- Computation rule: splitting the empty list. -/
@[simp] theorem pyWords_nil : pyWords [] = [] := rfl

/-- Computation rule: joining a two-or-more word list. -/
theorem joinWords_cons_cons (w w1 : List Char) (ws : List (List Char)) :
    joinWords (w :: w1 :: ws) = w ++ ' ' :: joinWords (w1 :: ws) := rfl

/-- `dropWhile` is the identity when no element satisfies the predicate. -/
theorem dropWhile_eq_self_of_none {α : Type} (q : α → Bool) :
    ∀ l : List α, (∀ x ∈ l, q x = false) → l.dropWhile q = l := by
  intro l h
  rcases l with _ | ⟨x, l⟩
  · rfl
  · exact List.dropWhile_cons_of_neg (by simp [h x (List.mem_cons_self _ _)])

/-- Splitting ignores a leading whitespace character. -/
theorem pyWords_cons_space {c : Char} (cs : List Char) (h : pyIsSpace c = true) :
    pyWords (c :: cs) = pyWords cs := by
  rcases cs with _ | ⟨d, cs⟩ <;> simp [pyWords, h]

/-- Splitting at a leading non-whitespace character takes the maximal run. -/
theorem pyWords_cons_nonspace {c : Char} (cs : List Char) (h : pyIsSpace c = false) :
    pyWords (c :: cs) =
      (c :: cs.takeWhile pyNotSpace) :: pyWords (cs.dropWhile pyNotSpace) := by
  induction cs generalizing c with
  | nil => simp [pyWords, h]
  | cons d cs ih =>
    by_cases hd : pyIsSpace d = true
    · have h1 : pyNotSpace d = false := by simp [pyNotSpace, hd]
      rw [List.takeWhile_cons_of_neg (by simp [h1]),
        List.dropWhile_cons_of_neg (by simp [h1])]
      simp [pyWords, h, hd]
    · rw [Bool.not_eq_true] at hd
      have h1 : pyNotSpace d = true := by simp [pyNotSpace, hd]
      rw [List.takeWhile_cons_of_pos (by simp [h1]),
        List.dropWhile_cons_of_pos (by simp [h1])]
      have hrec := ih hd
      rw [pyWords]
      simp only [h, Bool.false_eq_true, if_false, hd, hrec]

/-- A list starting with a non-whitespace character splits into at least
one word. -/
theorem pyWords_cons_nonspace_ne_nil {d : Char} (cs : List Char)
    (h : pyIsSpace d = false) : pyWords (d :: cs) ≠ [] := by
  rw [pyWords_cons_nonspace cs h]
  simp

/-- Recursion principle following the word structure: a goal holds of every
character list if it holds of the empty list, is preserved by dropping a
leading whitespace character, and is recovered from the remainder after
the first word. -/
theorem pyWords_rec {motive : List Char → Prop}
    (h0 : motive [])
    (h1 : ∀ c cs, pyIsSpace c = true → motive cs → motive (c :: cs))
    (h2 : ∀ c cs, pyIsSpace c = false → motive (cs.dropWhile pyNotSpace) →
      motive (c :: cs)) :
    ∀ cs, motive cs := by
  have H : ∀ n cs, List.length cs ≤ n → motive cs := by
    intro n
    induction n with
    | zero =>
      intro cs hl
      rw [List.length_eq_zero.mp (Nat.le_zero.mp hl)]
      exact h0
    | succ n ih =>
      intro cs hl
      rcases cs with _ | ⟨c, cs⟩
      · exact h0
      · rw [List.length_cons] at hl
        by_cases hc : pyIsSpace c = true
        · exact h1 c cs hc (ih cs (Nat.le_of_succ_le_succ hl))
        · rw [Bool.not_eq_true] at hc
          exact h2 c cs hc
            (ih _ (Nat.le_trans (length_dropWhile_le pyNotSpace cs)
              (Nat.le_of_succ_le_succ hl)))
  exact fun cs => H cs.length cs (Nat.le_refl _)

/-- Every produced word is non-empty and whitespace-free. -/
theorem pyWords_shape (cs : List Char) :
    ∀ w ∈ pyWords cs, w ≠ [] ∧ ∀ c ∈ w, pyIsSpace c = false := by
  induction cs using pyWords_rec with
  | h0 => simp
  | h1 c cs h ih =>
    rw [pyWords_cons_space cs h]
    exact ih
  | h2 c cs h ih =>
    rw [pyWords_cons_nonspace cs h]
    intro w hw
    rcases List.mem_cons.mp hw with hw1 | hw1
    · subst hw1
      refine ⟨by simp, ?_⟩
      intro x hx
      rcases List.mem_cons.mp hx with hx1 | hx1
      · simpa [hx1] using h
      · have := List.mem_takeWhile_imp hx1
        simpa [pyNotSpace] using this
    · exact ih w hw1

/-- `takeWhile` ignores anything appended after a failing element. -/
theorem takeWhile_append_of_ne {α : Type} (q : α → Bool) :
    ∀ l r : List α, l.takeWhile q ≠ l → (l ++ r).takeWhile q = l.takeWhile q := by
  intro l
  induction l with
  | nil => intro r h; exact absurd rfl h
  | cons x l ih =>
    intro r h
    by_cases hx : q x = true
    · rw [List.cons_append, List.takeWhile_cons_of_pos hx,
        List.takeWhile_cons_of_pos hx, ih]
      intro hl
      exact h (by rw [List.takeWhile_cons_of_pos hx, hl])
    · rw [Bool.not_eq_true] at hx
      rw [List.cons_append, List.takeWhile_cons_of_neg (by simp [hx]),
        List.takeWhile_cons_of_neg (by simp [hx])]

/-- `dropWhile` passes an append through when it stops inside the left part. -/
theorem dropWhile_append_of_ne {α : Type} (q : α → Bool) :
    ∀ l r : List α, l.takeWhile q ≠ l → (l ++ r).dropWhile q = l.dropWhile q ++ r := by
  intro l
  induction l with
  | nil => intro r h; exact absurd rfl h
  | cons x l ih =>
    intro r h
    by_cases hx : q x = true
    · rw [List.cons_append, List.dropWhile_cons_of_pos hx,
        List.dropWhile_cons_of_pos hx, ih]
      intro hl
      exact h (by rw [List.takeWhile_cons_of_pos hx, hl])
    · rw [Bool.not_eq_true] at hx
      rw [List.cons_append, List.dropWhile_cons_of_neg (by simp [hx]),
        List.dropWhile_cons_of_neg (by simp [hx])]
      simp

/-- `takeWhile` runs into an append while the predicate holds throughout. -/
theorem takeWhile_append_of_all {α : Type} (q : α → Bool) :
    ∀ l r : List α, (∀ x ∈ l, q x = true) → (l ++ r).takeWhile q = l ++ r.takeWhile q := by
  intro l
  induction l with
  | nil => intro r _; rfl
  | cons x l ih =>
    intro r h
    rw [List.cons_append, List.takeWhile_cons_of_pos (h x (List.mem_cons_self _ _)),
      ih r fun y hy => h y (List.mem_cons_of_mem _ hy), List.cons_append]

/-- `dropWhile` passes a fully satisfying left part. -/
theorem dropWhile_append_of_all {α : Type} (q : α → Bool) :
    ∀ l r : List α, (∀ x ∈ l, q x = true) → (l ++ r).dropWhile q = r.dropWhile q := by
  intro l
  induction l with
  | nil => intro r _; rfl
  | cons x l ih =>
    intro r h
    rw [List.cons_append, List.dropWhile_cons_of_pos (h x (List.mem_cons_self _ _)),
      ih r fun y hy => h y (List.mem_cons_of_mem _ hy)]

/-- Splitting distributes over concatenation at a whitespace character. -/
theorem pyWords_append_space (d : Char) (hd : pyIsSpace d = true) :
    ∀ xs ys : List Char, pyWords (xs ++ d :: ys) = pyWords xs ++ pyWords ys := by
  intro xs
  induction xs using pyWords_rec with
  | h0 =>
    intro ys
    rw [List.nil_append, pyWords_cons_space ys hd, pyWords_nil, List.nil_append]
  | h1 c cs h ih =>
    intro ys
    rw [List.cons_append, pyWords_cons_space _ h, pyWords_cons_space _ h, ih]
  | h2 c cs h ih =>
    intro ys
    by_cases hall : cs.takeWhile pyNotSpace = cs
    · have hq : ∀ x ∈ cs, pyNotSpace x = true := List.takeWhile_eq_self_iff.mp hall
      have hdnq : pyNotSpace d = false := by simp [pyNotSpace, hd]
      have hdrop : cs.dropWhile pyNotSpace = [] := by
        have h2 := cs.takeWhile_append_dropWhile pyNotSpace
        rw [hall] at h2
        simpa using h2
      rw [List.cons_append, pyWords_cons_nonspace _ h,
        takeWhile_append_of_all pyNotSpace cs (d :: ys) hq,
        dropWhile_append_of_all pyNotSpace cs (d :: ys) hq,
        List.takeWhile_cons_of_neg (by simp [hdnq]),
        List.dropWhile_cons_of_neg (by simp [hdnq]),
        pyWords_cons_space ys hd, pyWords_cons_nonspace _ h, hall, hdrop]
      simp [pyWords]
    · rw [List.cons_append, pyWords_cons_nonspace _ h,
        takeWhile_append_of_ne pyNotSpace cs (d :: ys) hall,
        dropWhile_append_of_ne pyNotSpace cs (d :: ys) hall,
        ih, pyWords_cons_nonspace _ h]
      simp

/-- Splitting an all-whitespace list yields no words. -/
theorem pyWords_all_space : ∀ sp : List Char,
    (∀ c ∈ sp, pyIsSpace c = true) → pyWords sp = [] := by
  intro sp
  induction sp with
  | nil => intro; simp
  | cons c sp ih =>
    intro h
    rw [pyWords_cons_space sp (h c (List.mem_cons_self _ _))]
    exact ih fun x hx => h x (List.mem_cons_of_mem _ hx)

/-- Splitting a single whitespace-free non-empty word yields that word. -/
theorem pyWords_single_word : ∀ w : List Char,
    w ≠ [] → (∀ c ∈ w, pyIsSpace c = false) → pyWords w = [w] := by
  intro w
  rcases w with _ | ⟨c, w⟩
  · intro h; exact absurd rfl h
  · intro _ h
    have hc : pyIsSpace c = false := h c (List.mem_cons_self _ _)
    have hall : w.takeWhile pyNotSpace = w :=
      List.takeWhile_eq_self_iff.mpr fun x hx => by
        simp [pyNotSpace, h x (List.mem_cons_of_mem _ hx)]
    have hdrop : w.dropWhile pyNotSpace = [] := by
      have h2 := w.takeWhile_append_dropWhile pyNotSpace
      rw [hall] at h2
      simpa using h2
    rw [pyWords_cons_nonspace w hc, hall, hdrop]
    simp

/-- Splitting a space-joined list of canonical words recovers the words. -/
theorem pyWords_joinWords : ∀ ws : List (List Char),
    (∀ w ∈ ws, w ≠ [] ∧ ∀ c ∈ w, pyIsSpace c = false) →
    pyWords (joinWords ws) = ws := by
  intro ws
  induction ws with
  | nil => intro; simp [joinWords]
  | cons w ws ih =>
    intro h
    rcases ws with _ | ⟨w1, ws1⟩
    · exact pyWords_single_word w (h w (by simp)).1 (h w (by simp)).2
    · rw [joinWords_cons_cons, pyWords_append_space ' ' (by decide) w (joinWords (w1 :: ws1)),
        pyWords_single_word w (h w (by simp)).1 (h w (by simp)).2,
        ih fun x hx => h x (List.mem_cons_of_mem _ hx)]
      rfl

/-- Normalization is idempotent at the word level: the words of a
normalized string are the words of the original. -/
theorem pyWords_normChars (cs : List Char) : pyWords (normChars cs) = pyWords cs :=
  pyWords_joinWords (pyWords cs) (pyWords_shape cs)

/-- Trailing whitespace does not affect the word decomposition. -/
theorem pyWords_append_all_space : ∀ cs sp : List Char,
    (∀ c ∈ sp, pyIsSpace c = true) → pyWords (cs ++ sp) = pyWords cs := by
  intro cs sp
  induction sp generalizing cs with
  | nil => intro; simp
  | cons x sp ih =>
    intro h
    rw [pyWords_append_space x (h x (List.mem_cons_self _ _)) cs sp,
      pyWords_all_space sp fun y hy => h y (List.mem_cons_of_mem _ hy)]
    simp

/-- Leading whitespace does not affect the word decomposition. -/
theorem pyWords_dropWhile_space (cs : List Char) :
    pyWords (cs.dropWhile pyIsSpace) = pyWords cs := by
  induction cs with
  | nil => rfl
  | cons c cs ih =>
    by_cases hc : pyIsSpace c = true
    · rw [List.dropWhile_cons_of_pos hc, ih, pyWords_cons_space cs hc]
    · rw [Bool.not_eq_true] at hc
      rw [List.dropWhile_cons_of_neg (by simp [hc])]

/-- Stripping does not affect the word decomposition (Python
`text.strip().split() == text.split()`). -/
theorem pyWords_pyStripChars (cs : List Char) :
    pyWords (pyStripChars cs) = pyWords cs := by
  rw [pyStripChars]
  set u := cs.dropWhile pyIsSpace with hu
  have hsp : ∀ c ∈ (u.reverse.takeWhile pyIsSpace).reverse, pyIsSpace c = true := by
    intro c hc
    exact List.mem_takeWhile_imp (List.mem_reverse.mp hc)
  have hdecomp : (u.reverse.dropWhile pyIsSpace).reverse ++
      (u.reverse.takeWhile pyIsSpace).reverse = u := by
    rw [← List.reverse_append, u.reverse.takeWhile_append_dropWhile pyIsSpace,
      List.reverse_reverse]
  calc pyWords (u.reverse.dropWhile pyIsSpace).reverse
      = pyWords ((u.reverse.dropWhile pyIsSpace).reverse ++
          (u.reverse.takeWhile pyIsSpace).reverse) :=
        (pyWords_append_all_space _ _ hsp).symm
    _ = pyWords u := by rw [hdecomp]
    _ = pyWords cs := pyWords_dropWhile_space cs

/-- A whitespace-free list is fixed by stripping. -/
theorem pyStripChars_of_nonspace (cs : List Char)
    (h : ∀ c ∈ cs, pyIsSpace c = false) : pyStripChars cs = cs := by
  rw [pyStripChars, dropWhile_eq_self_of_none pyIsSpace cs h,
    dropWhile_eq_self_of_none pyIsSpace cs.reverse
      (fun c hc => h c (List.mem_reverse.mp hc)),
    List.reverse_reverse]

/-! ### Lemmas about `startsWith` and `firstSplit` -/

/-- `startsWith` decides the prefix relation. -/
theorem startsWith_iff : ∀ p s : List Char,
    startsWith p s = true ↔ ∃ r, s = p ++ r := by
  intro p
  induction p with
  | nil =>
    intro s
    simp [startsWith]
  | cons x p ih =>
    intro s
    rcases s with _ | ⟨c, cs⟩
    · simp [startsWith]
    · rw [startsWith]
      simp only [Bool.and_eq_true, decide_eq_true_eq, ih cs]
      constructor
      · rintro ⟨hx, r, hr⟩
        subst hx
        exact ⟨r, by rw [hr]; rfl⟩
      · rintro ⟨r, hr⟩
        rw [List.cons_append] at hr
        injection hr with h1 h2
        exact ⟨h1.symm, r, h2⟩

/-- A successful `firstSplit` decomposes the subject around the pattern. -/
theorem firstSplit_eq_append (pat : List Char) :
    ∀ s b a, firstSplit pat s = some (b, a) → s = b ++ pat ++ a := by
  intro s
  induction s with
  | nil => intro b a h; exact absurd h (by simp [firstSplit])
  | cons c cs ih =>
    intro b a h
    rw [firstSplit] at h
    by_cases hpre : startsWith pat (c :: cs) = true
    · rw [if_pos hpre] at h
      simp only [Option.some.injEq, Prod.mk.injEq] at h
      obtain ⟨hb, ha⟩ := h
      subst hb
      obtain ⟨r, hr⟩ := (startsWith_iff pat (c :: cs)).mp hpre
      have hra : r = a := by rw [hr, List.drop_left] at ha; exact ha
      rw [hr, ← hra, List.nil_append]
    · rw [if_neg hpre] at h
      rcases hfs : firstSplit pat cs with _ | ⟨b1, a1⟩ <;> rw [hfs] at h
      · exact absurd h (by simp)
      · simp only [Option.some.injEq, Prod.mk.injEq] at h
        obtain ⟨hb, ha⟩ := h
        subst hb ha
        have hcs := ih b1 a1 hfs
        rw [List.cons_append, List.cons_append, ← hcs]

/-- A `firstSplit` hit with empty left part means the pattern starts the
subject. -/
theorem firstSplit_nil_startsWith (pat : List Char) (s a : List Char)
    (h : firstSplit pat s = some ([], a)) : startsWith pat s = true := by
  rcases s with _ | ⟨c, cs⟩
  · exact absurd h (by simp [firstSplit])
  · rw [firstSplit] at h
    by_cases hpre : startsWith pat (c :: cs) = true
    · exact hpre
    · rw [if_neg hpre] at h
      rcases hfs : firstSplit pat cs with _ | ⟨b1, a1⟩ <;> rw [hfs] at h
      · exact absurd h (by simp)
      · simp only [Option.some.injEq, Prod.mk.injEq] at h
        exact absurd h.1.symm (by simp)

/-- A normalized string never starts with a whitespace character. -/
theorem normChars_head_nonspace (cs : List Char) (c : Char) (rest : List Char)
    (h : normChars cs = c :: rest) : pyIsSpace c = false := by
  rw [normChars] at h
  rcases hws : pyWords cs with _ | ⟨w, ws⟩
  · rw [hws] at h; exact absurd h (by simp [joinWords])
  · rw [hws] at h
    have hsh := pyWords_shape cs w (by rw [hws]; exact List.mem_cons_self _ _)
    rcases w with _ | ⟨x, w'⟩
    · exact absurd rfl hsh.1
    · have hx : pyIsSpace x = false := hsh.2 x (List.mem_cons_self _ _)
      rcases ws with _ | ⟨w1, ws1⟩
      · have h2 : x :: w' = c :: rest := h
        injection h2 with h1 _
        rw [← h1]; exact hx
      · rw [joinWords_cons_cons, List.cons_append] at h
        injection h with h1 _
        rw [← h1]; exact hx

/-! ### Case lemmas for `parse_category_list_item` -/

/-- An input whose normalization contains the marker is non-empty. -/
theorem text_ne_empty_of_split (text : String) (bef aft : List Char)
    (hsplit : firstSplit markerL (normChars text.data) = some (bef, aft)) :
    text ≠ "" := by
  intro he
  subst he
  simp [normChars, joinWords, firstSplit] at hsplit

/-- Marker present, head of two or more tokens whose last token passes the
metric test: the name is the space-join of the leading tokens, and the
metric fields come from `parse_metric`. -/
theorem parse_item_metric_multi (text : String) (bef aft : List Char)
    (ps : List (List Char)) (last : List Char) (mr : Option String) (mv : Option Int)
    (hsplit : firstSplit markerL (normChars text.data) = some (bef, aft))
    (hps : pyWords bef = ps ++ [last]) (hne : ps ≠ [])
    (hmet : metricTokenOpt last = true)
    (hpm : parse_metric (String.mk last) = some (mr, mv)) :
    parse_category_list_item text =
      some ⟨some (String.mk (joinWords ps)), mr, mv,
            some (String.mk (pyStripChars aft))⟩ := by
  have htext := text_ne_empty_of_split text bef aft hsplit
  have hlen : (pyWords bef).length > 1 := by
    rw [hps, List.length_append, List.length_singleton]
    have := List.length_pos.mpr hne
    omega
  have hlast : (pyWords bef).getLast? = some last := by
    rw [hps, List.getLast?_concat]
  have hdl : (pyWords bef).dropLast = ps := by
    rw [hps, List.dropLast_concat]
  rw [parse_category_list_item, if_neg htext]
  simp only [hsplit, hlast, hmet, if_true, hpm, hdl, if_pos hlen]

/-- Marker present, head of exactly one token passing the metric test: the
name is the whole head (`before`), not the empty string. -/
theorem parse_item_metric_single (text : String) (bef aft : List Char)
    (last : List Char) (mr : Option String) (mv : Option Int)
    (hsplit : firstSplit markerL (normChars text.data) = some (bef, aft))
    (hps : pyWords bef = [last])
    (hmet : metricTokenOpt last = true)
    (hpm : parse_metric (String.mk last) = some (mr, mv)) :
    parse_category_list_item text =
      some ⟨some (String.mk bef), mr, mv, some (String.mk (pyStripChars aft))⟩ := by
  have htext := text_ne_empty_of_split text bef aft hsplit
  have hlen : ¬((pyWords bef).length > 1) := by
    rw [hps, List.length_singleton]
    omega
  have hlast : (pyWords bef).getLast? = some last := by
    rw [hps]; rfl
  rw [parse_category_list_item, if_neg htext]
  simp only [hsplit, hlast, hmet, if_true, hpm, if_neg hlen]

/-- Marker present, last head token failing the metric test: the stripped
head is the name and no metric is recorded. -/
theorem parse_item_no_metric (text : String) (bef aft : List Char)
    (last : List Char)
    (hsplit : firstSplit markerL (normChars text.data) = some (bef, aft))
    (hlast : (pyWords bef).getLast? = some last)
    (hmet : metricTokenOpt last = false) :
    parse_category_list_item text =
      some ⟨some (String.mk (pyStripChars bef)), none, none,
            some (String.mk (pyStripChars aft))⟩ := by
  have htext := text_ne_empty_of_split text bef aft hsplit
  rw [parse_category_list_item, if_neg htext]
  simp only [hsplit, hlast, hmet, Bool.false_eq_true, if_false]

/-- Marker present but empty head token list: the name stays the whole
normalized input (unreachable from real inputs, kept for faithfulness). -/
theorem parse_item_empty_head (text : String) (bef aft : List Char)
    (hsplit : firstSplit markerL (normChars text.data) = some (bef, aft))
    (hlast : (pyWords bef).getLast? = none) :
    parse_category_list_item text =
      some ⟨some (String.mk (normChars text.data)), none, none,
            some (String.mk (pyStripChars aft))⟩ := by
  have htext := text_ne_empty_of_split text bef aft hsplit
  rw [parse_category_list_item, if_neg htext]
  simp only [hsplit, hlast]

/-- Marker absent: the whole normalized input is the name, the description
is the empty string (not `None`). -/
theorem parse_item_no_marker (text : String)
    (htext : text ≠ "")
    (hsplit : firstSplit markerL (normChars text.data) = none) :
    parse_category_list_item text =
      some ⟨some (String.mk (normChars text.data)), none, none, some ""⟩ := by
  rw [parse_category_list_item, if_neg htext]
  simp only [hsplit]

/-- Marker present, last head token passing the metric test, but the
metric conversion overflows: the whole parse raises. -/
theorem parse_item_metric_overflow (text : String) (bef aft : List Char)
    (last : List Char)
    (hsplit : firstSplit markerL (normChars text.data) = some (bef, aft))
    (hlast : (pyWords bef).getLast? = some last)
    (hmet : metricTokenOpt last = true)
    (hpm : parse_metric (String.mk last) = none) :
    parse_category_list_item text = none := by
  have htext := text_ne_empty_of_split text bef aft hsplit
  rw [parse_category_list_item, if_neg htext]
  simp only [hsplit, hlast, hmet, if_true, hpm]

/-- `parse_metric` always reports the stripped input as the raw metric
text when it returns. -/
theorem parse_metric_raw_eq (raw : String) (hraw : raw ≠ "") (mr : Option String)
    (mv : Option Int) (h : parse_metric raw = some (mr, mv)) :
    mr = some (String.mk (pyStripChars raw.data)) := by
  rw [parse_metric, if_neg hraw] at h
  rcases hm : matchMetricSuffixed (pyStripChars raw.data) with _ | ⟨ip, fp, suf⟩ <;>
    simp only [hm] at h
  · by_cases hd : pyIsDigitStr (pyStripChars raw.data) = true
    · rw [if_pos hd] at h
      simp only [Option.some.injEq, Prod.mk.injEq] at h
      exact h.1.symm
    · rw [if_neg hd] at h
      simp only [Option.some.injEq, Prod.mk.injEq] at h
      exact h.1.symm
  · rcases hi : pyInt (pyMul (floatOfDecimal ip fp) (multFloat suf)) with _ | v
    · rw [hi] at h
      exact absurd h (by simp)
    · rw [hi] at h
      simp only [Option.some.injEq, Prod.mk.injEq] at h
      exact h.1.symm

/-- The left part of a marker split is never empty: normalization leaves
no leading whitespace, while the marker starts with a space. -/
theorem split_bef_ne_nil (text : String) (bef aft : List Char)
    (hsplit : firstSplit markerL (normChars text.data) = some (bef, aft)) :
    bef ≠ [] := by
  intro he
  subst he
  have hsw := firstSplit_nil_startsWith markerL (normChars text.data) aft hsplit
  obtain ⟨r, hr⟩ := (startsWith_iff markerL (normChars text.data)).mp hsw
  have : pyIsSpace ' ' = false := normChars_head_nonspace text.data ' ' _ hr
  simp [pyIsSpace] at this

/-- The left part of a marker split starts with a non-whitespace character
and therefore yields at least one token. -/
theorem split_bef_words_ne_nil (text : String) (bef aft : List Char)
    (hsplit : firstSplit markerL (normChars text.data) = some (bef, aft)) :
    pyWords bef ≠ [] := by
  have hne := split_bef_ne_nil text bef aft hsplit
  rcases hb : bef with _ | ⟨c, bef1⟩
  · exact absurd hb hne
  · have hdec := firstSplit_eq_append markerL (normChars text.data) bef aft hsplit
    rw [hb] at hdec
    have hc : pyIsSpace c = false :=
      normChars_head_nonspace text.data c _ (by rw [hdec]; rfl)
    exact pyWords_cons_nonspace_ne_nil bef1 hc

/-- The word `"1233"` of the marker. -/
def markerWord : List Char := ['1', '2', '3', '3']

/-- The words of an input whose normalization splits at the marker are the
words before it, the marker word, and the words after it. -/
theorem split_words (text : String) (bef aft : List Char)
    (hsplit : firstSplit markerL (normChars text.data) = some (bef, aft)) :
    pyWords text.data = pyWords bef ++ markerWord :: pyWords aft := by
  have hdec := firstSplit_eq_append markerL (normChars text.data) bef aft hsplit
  have hassoc : bef ++ markerL ++ aft = bef ++ ' ' :: (markerWord ++ ' ' :: aft) := by
    rw [List.append_assoc]
    rfl
  calc pyWords text.data
      = pyWords (normChars text.data) := (pyWords_normChars text.data).symm
    _ = pyWords (bef ++ ' ' :: (markerWord ++ ' ' :: aft)) := by rw [← hassoc, ← hdec]
    _ = pyWords bef ++ pyWords (markerWord ++ ' ' :: aft) :=
        pyWords_append_space ' ' (by decide) bef _
    _ = pyWords bef ++ (pyWords markerWord ++ pyWords aft) := by
        rw [pyWords_append_space ' ' (by decide) markerWord aft]
    _ = pyWords bef ++ markerWord :: pyWords aft := by
        rw [pyWords_single_word markerWord (by decide) (by decide)]
        rfl

/-- Marker present, last head token passing the metric test, conversion
succeeding: general form covering both the one-token and many-token heads. -/
theorem parse_item_metric_any (text : String) (bef aft : List Char)
    (last : List Char) (mr : Option String) (mv : Option Int)
    (hsplit : firstSplit markerL (normChars text.data) = some (bef, aft))
    (hlast : (pyWords bef).getLast? = some last)
    (hmet : metricTokenOpt last = true)
    (hpm : parse_metric (String.mk last) = some (mr, mv)) :
    parse_category_list_item text =
      some ⟨some (String.mk (if (pyWords bef).length > 1
              then joinWords (pyWords bef).dropLast else bef)), mr, mv,
            some (String.mk (pyStripChars aft))⟩ := by
  have htext := text_ne_empty_of_split text bef aft hsplit
  rw [parse_category_list_item, if_neg htext]
  simp only [hsplit, hlast, hmet, if_true, hpm]

/-- A non-empty character list makes a non-empty string. -/
theorem string_mk_ne_empty (l : List Char) (h : l ≠ []) : String.mk l ≠ "" := by
  intro he
  exact h (congrArg String.data he)

/-! ### Claim theorems for the segmentation parser

Concrete evaluations of the parser run inside the kernel; the float model
needs a recursion-depth allowance for its multi-thousand-bit arithmetic. -/

set_option maxRecDepth 4000

/-- A marker-bearing input whose metric token overflows the float range
(`float("9"*400) = inf`, so `int(inf * 1000)` raises `OverflowError`). -/
def overflowInput1 : String :=
  "X " ++ String.mk (List.replicate 400 '9' ++ ['K']) ++ " 1233 d"

/-- A second, distinct overflowing input. -/
def overflowInput2 : String :=
  "Z " ++ String.mk (List.replicate 320 '9' ++ ['K']) ++ " 1233 x"

/-- C4: `parse_metric` maps `"5K"` to 5000, `"1.66B"` to 1,660,000,000
(float product truncated), `"174M"` to 174,000,000, and the suffix-free
digit string `"1234"` to raw `"1234"` with value 1234; a last head token
`"abc"` matches no metric pattern, so the whole head becomes the name. -/
theorem claim_C4_metric_conversion :
    parse_metric "5K" = some (some "5K", some 5000) ∧
    parse_metric "1.66B" = some (some "1.66B", some 1660000000) ∧
    parse_metric "174M" = some (some "174M", some 174000000) ∧
    parse_metric "1234" = some (some "1234", some 1234) ∧
    parse_category_list_item "X abc 1233 d" =
      some ⟨some "X abc", none, none, some "d"⟩ := by
  exact ⟨by decide, by decide, by decide, by decide, by decide⟩

/-- C5 counterexample: on the empty input the parser returns `None` for
every field — the name is Python `None`, not the empty string the claim
asserts. -/
theorem claim_C5_counterexample :
    parse_category_list_item "" = some ⟨none, none, none, none⟩ ∧
    (ParsedItem.mk none none none none).name ≠ some "" := by
  exact ⟨by decide, by decide⟩

/-- C5 (amended): the empty input yields all four fields unset (name is
`None`, not `""`); a whitespace-only input (which normalizes to the empty
string) yields name `""`; and after whitespace normalization the marker
can never occur with an empty left side, so that branch of the claim is
vacuous — the parser does not error on any marker-bearing input's shape. -/
theorem claim_C5_empty_input :
    parse_category_list_item "" = some ⟨none, none, none, none⟩ ∧
    parse_category_list_item " " = some ⟨some "", none, none, some ""⟩ ∧
    ∀ text : String, ∀ bef aft : List Char,
      firstSplit markerL (normChars text.data) = some (bef, aft) → bef ≠ [] := by
  refine ⟨by decide, by decide, ?_⟩
  intro text bef aft h
  exact split_bef_ne_nil text bef aft h

/-- C5 witness: the left side of the marker split of `"A 1233 b"` is the
non-empty token `"A"`. -/
theorem claim_C5_empty_input_witness : ("A".data : List Char) ≠ [] :=
  claim_C5_empty_input.2.2 "A 1233 b" "A".data "b".data (by decide)

/-- C10 counterexample: a non-empty input on which the parser does not
return at all — the metric conversion raises `OverflowError`, so no
description (or any field) is produced. -/
theorem claim_C10_counterexample :
    overflowInput2 ≠ "" ∧ parse_category_list_item overflowInput2 = none := by
  exact ⟨by decide, by decide⟩

/-- C10 (amended): on every non-empty input on which the parser returns
(it raises `OverflowError` when a metric token exceeds the float range),
the name and the description are strings (never `None`), the metric
fields are set only when the marker occurs in the normalized input, and a
missing marker forces the empty-string description. -/
theorem claim_C10_field_invariants (text : String) (r : ParsedItem)
    (htext : text ≠ "") (hret : parse_category_list_item text = some r) :
    r.name ≠ none ∧ r.description ≠ none ∧
    ((r.metric_raw ≠ none ∨ r.metric_value ≠ none) →
      firstSplit markerL (normChars text.data) ≠ none) ∧
    (firstSplit markerL (normChars text.data) = none → r.description = some "") := by
  rcases hfs : firstSplit markerL (normChars text.data) with _ | ⟨bef, aft⟩
  · rw [parse_item_no_marker text htext hfs] at hret
    rw [← Option.some.inj hret]
    simp
  · rcases hlast : (pyWords bef).getLast? with _ | last
    · rw [parse_item_empty_head text bef aft hfs hlast] at hret
      rw [← Option.some.inj hret]
      simp [hfs]
    · by_cases hmet : metricTokenOpt last = true
      · rcases hpm : parse_metric (String.mk last) with _ | ⟨mr, mv⟩
        · rw [parse_item_metric_overflow text bef aft last hfs hlast hmet hpm] at hret
          exact absurd hret (by simp)
        · rw [parse_item_metric_any text bef aft last mr mv hfs hlast hmet hpm] at hret
          rw [← Option.some.inj hret]
          simp [hfs]
      · rw [Bool.not_eq_true] at hmet
        rw [parse_item_no_metric text bef aft last hfs hlast hmet] at hret
        rw [← Option.some.inj hret]
        simp [hfs]

/-- C10 witness: on `"Tool 5K 1233 d"` the parser returns and its name
field is set. -/
theorem claim_C10_field_invariants_witness :
    (ParsedItem.mk (some "Tool") (some "5K") (some 5000) (some "d")).name ≠ none :=
  (claim_C10_field_invariants "Tool 5K 1233 d"
    ⟨some "Tool", some "5K", some 5000, some "d"⟩ (by decide) (by decide)).1

/-- C1 counterexample: an input containing the marker whose last head
token matches the metric pattern, on which the parser raises
(`OverflowError`) instead of producing the record with `metric_raw` set
that the claim asserts for every such input. -/
theorem claim_C1_counterexample :
    firstSplit markerL (normChars overflowInput1.data) ≠ none ∧
    metricTokenOpt (List.replicate 400 '9' ++ ['K']) = true ∧
    parse_category_list_item overflowInput1 = none := by
  exact ⟨by decide, by decide, by decide⟩

/-- C1 (amended): for every input whose normalization contains the marker,
provided the metric conversion of the last head token does not overflow
the float range: if the last of two or more head tokens matches the
metric pattern it becomes `metric_raw` and the remaining tokens joined by
single spaces become the name; if the head is exactly one matching token,
the whole head becomes the name (never the empty string) while the metric
is still extracted; if the last token does not match, the whole stripped
head becomes the name and the metric fields stay unset. -/
theorem claim_C1_head_segmentation (text : String) (bef aft : List Char)
    (hsplit : firstSplit markerL (normChars text.data) = some (bef, aft)) :
    (∀ ps last mr mv, pyWords bef = ps ++ [last] → ps ≠ [] →
      metricTokenOpt last = true → parse_metric (String.mk last) = some (mr, mv) →
      parse_category_list_item text =
        some ⟨some (String.mk (joinWords ps)), mr, mv,
              some (String.mk (pyStripChars aft))⟩ ∧
      mr = some (String.mk last)) ∧
    (∀ last mr mv, pyWords bef = [last] →
      metricTokenOpt last = true → parse_metric (String.mk last) = some (mr, mv) →
      parse_category_list_item text =
        some ⟨some (String.mk bef), mr, mv, some (String.mk (pyStripChars aft))⟩ ∧
      String.mk bef ≠ "") ∧
    (∀ last, (pyWords bef).getLast? = some last → metricTokenOpt last = false →
      parse_category_list_item text =
        some ⟨some (String.mk (pyStripChars bef)), none, none,
              some (String.mk (pyStripChars aft))⟩) := by
  refine ⟨?_, ?_, ?_⟩
  · intro ps last mr mv hps hne hmet hpm
    refine ⟨parse_item_metric_multi text bef aft ps last mr mv hsplit hps hne hmet hpm, ?_⟩
    have hlmem : last ∈ pyWords bef := by
      rw [hps]
      exact List.mem_append_right ps (List.mem_cons_self _ _)
    have hsh := pyWords_shape bef last hlmem
    have hmk := parse_metric_raw_eq (String.mk last)
      (string_mk_ne_empty last hsh.1) mr mv hpm
    rw [hmk, pyStripChars_of_nonspace last hsh.2]
  · intro last mr mv hps hmet hpm
    refine ⟨parse_item_metric_single text bef aft last mr mv hsplit hps hmet hpm, ?_⟩
    exact string_mk_ne_empty bef (split_bef_ne_nil text bef aft hsplit)
  · intro last hlast hmet
    exact parse_item_no_metric text bef aft last hsplit hlast hmet

/-- C1 witness: the canonical multi-token example from the specification. -/
theorem claim_C1_head_segmentation_witness :
    parse_category_list_item "Widget Pro 5K 1233 A tool" =
      some ⟨some "Widget Pro", some "5K", some 5000, some "A tool"⟩ := by
  have h := (claim_C1_head_segmentation "Widget Pro 5K 1233 A tool"
      ("Widget Pro 5K".data) ("A tool".data) (by decide)).1
      ["Widget".data, "Pro".data] ("5K".data) (some "5K") (some 5000)
      (by decide) (by decide) (by decide) (by decide)
  rw [h.1]
  decide

/-- The reconstruction `name + " " + metric_raw + " " + "1233" + " " +
description` of the specification's round-trip property (§8), omitting the
metric part when `metric_raw` is unset.  This definition follows the
specification's words; it is the comparison target of claim C3, not part
of the scraper. -/
def reconcat (r : ParsedItem) : String :=
  r.name.getD "" ++ " " ++
    (match r.metric_raw with
     | none => ""
     | some m => m ++ " ") ++ "1233 " ++ r.description.getD ""

/-- Character content of the reconstruction when the metric is present. -/
theorem reconcat_data_metric (A B D : List Char) (mv : Option Int) :
    (reconcat ⟨some (String.mk A), some (String.mk B), mv, some (String.mk D)⟩).data =
      A ++ ' ' :: (B ++ ' ' :: ('1' :: '2' :: '3' :: '3' :: ' ' :: D)) := by
  show (String.mk A ++ " " ++ (String.mk B ++ " ") ++ "1233 " ++ String.mk D).data = _
  simp [String.data_append]

/-- Character content of the reconstruction when the metric is absent. -/
theorem reconcat_data_nometric (A D : List Char) :
    (reconcat ⟨some (String.mk A), none, none, some (String.mk D)⟩).data =
      A ++ ' ' :: ('1' :: '2' :: '3' :: '3' :: ' ' :: D) := by
  show (String.mk A ++ " " ++ "" ++ "1233 " ++ String.mk D).data = _
  simp [String.data_append]

/-- Word decomposition of a name/metric/marker/description assembly. -/
theorem pyWords_assemble_metric (x y z : List Char) :
    pyWords (x ++ ' ' :: (y ++ ' ' :: ('1' :: '2' :: '3' :: '3' :: ' ' :: z))) =
      pyWords x ++ (pyWords y ++ markerWord :: pyWords z) := by
  have hm : pyWords ('1' :: '2' :: '3' :: '3' :: ' ' :: z) = markerWord :: pyWords z := by
    have h := pyWords_append_space ' ' (by decide) markerWord z
    rw [pyWords_single_word markerWord (by decide) (by decide)] at h
    exact h
  rw [pyWords_append_space ' ' (by decide) x, pyWords_append_space ' ' (by decide) y, hm]

/-- Word decomposition of a name/marker/description assembly. -/
theorem pyWords_assemble_nometric (x z : List Char) :
    pyWords (x ++ ' ' :: ('1' :: '2' :: '3' :: '3' :: ' ' :: z)) =
      pyWords x ++ markerWord :: pyWords z := by
  have hm : pyWords ('1' :: '2' :: '3' :: '3' :: ' ' :: z) = markerWord :: pyWords z := by
    have h := pyWords_append_space ' ' (by decide) markerWord z
    rw [pyWords_single_word markerWord (by decide) (by decide)] at h
    exact h
  rw [pyWords_append_space ' ' (by decide) x, hm]

/-- C3 counterexample: when the head is a single metric token, the name
and `metric_raw` both hold that token, so the specified reconstruction
duplicates it and fails to reproduce the input. -/
theorem claim_C3_counterexample :
    parse_category_list_item "5K 1233 great" =
      some ⟨some "5K", some "5K", some 5000, some "great"⟩ ∧
    normalizeWs (reconcat ⟨some "5K", some "5K", some 5000, some "great"⟩) ≠
      normalizeWs "5K 1233 great" := by
  exact ⟨by decide, by decide⟩

/-- C3 (amended): for every input whose normalization contains the marker,
when the parser returns (no `OverflowError`) and the head is not the
single-metric-token edge case, the parse splits at the first marker
occurrence (later occurrences are swallowed into the description) and
`name + " " + metric_raw + " " + "1233" + " " + description` (omitting
the metric when unset) reconstructs the input up to whitespace
normalization. -/
theorem claim_C3_reconstruction (text : String) (bef aft : List Char) (r : ParsedItem)
    (hsplit : firstSplit markerL (normChars text.data) = some (bef, aft))
    (hret : parse_category_list_item text = some r)
    (hside : r.metric_raw = none ∨ 2 ≤ (pyWords bef).length) :
    normalizeWs (reconcat r) = normalizeWs text ∧
    r.description = some (String.mk (pyStripChars aft)) := by
  have hwne := split_bef_words_ne_nil text bef aft hsplit
  have hwords := split_words text bef aft hsplit
  rcases hlast : (pyWords bef).getLast? with _ | last
  · exact absurd (List.getLast?_eq_none_iff.mp hlast) hwne
  · by_cases hmet : metricTokenOpt last = true
    · rcases hpm : parse_metric (String.mk last) with _ | ⟨mr, mv⟩
      · rw [parse_item_metric_overflow text bef aft last hsplit hlast hmet hpm] at hret
        exact absurd hret (by simp)
      · have hgl : (pyWords bef).getLast hwne = last := by
          have h1 := List.getLast?_eq_getLast (pyWords bef) hwne
          rw [hlast] at h1
          exact (Option.some.inj h1).symm
        have hps : (pyWords bef).dropLast ++ [last] = pyWords bef := by
          rw [← hgl]
          exact List.dropLast_append_getLast hwne
        have hlmem : last ∈ pyWords bef := by
          rw [← hps]
          exact List.mem_append_right _ (List.mem_cons_self _ _)
        have hsh := pyWords_shape bef last hlmem
        have hmr : mr = some (String.mk last) := by
          rw [parse_metric_raw_eq (String.mk last) (string_mk_ne_empty last hsh.1) mr mv hpm]
          rw [pyStripChars_of_nonspace last hsh.2]
        rw [parse_item_metric_any text bef aft last mr mv hsplit hlast hmet hpm] at hret
        have hr := Option.some.inj hret
        subst hr
        by_cases hlen : (pyWords bef).length > 1
        · rw [if_pos hlen, hmr]
          refine ⟨?_, rfl⟩
          show String.mk (normChars (reconcat ⟨some (String.mk (joinWords (pyWords bef).dropLast)),
            some (String.mk last), mv, some (String.mk (pyStripChars aft))⟩).data) =
            String.mk (normChars text.data)
          rw [reconcat_data_metric]
          rw [normChars, normChars]
          have hwcalc : pyWords ((joinWords (pyWords bef).dropLast) ++ ' ' ::
              (last ++ ' ' :: ('1' :: '2' :: '3' :: '3' :: ' ' :: pyStripChars aft))) =
              pyWords text.data := by
            rw [pyWords_assemble_metric]
            rw [pyWords_joinWords (pyWords bef).dropLast
              (fun w hw => pyWords_shape bef w (List.dropLast_subset _ hw))]
            rw [pyWords_single_word last hsh.1 hsh.2, pyWords_pyStripChars]
            rw [hwords, ← hps]
            simp
          rw [hwcalc]
        · -- single metric token: excluded by the side condition
          exfalso
          rcases hside with hside | hside
          · have h2 : mr = none := hside
            rw [hmr] at h2
            exact Option.noConfusion h2
          · omega
    · rw [Bool.not_eq_true] at hmet
      rw [parse_item_no_metric text bef aft last hsplit hlast hmet] at hret
      have hr := Option.some.inj hret
      subst hr
      refine ⟨?_, rfl⟩
      show String.mk (normChars (reconcat ⟨some (String.mk (pyStripChars bef)),
        none, none, some (String.mk (pyStripChars aft))⟩).data) =
        String.mk (normChars text.data)
      rw [reconcat_data_nometric]
      rw [normChars, normChars]
      have hwcalc : pyWords ((pyStripChars bef) ++ ' ' ::
          ('1' :: '2' :: '3' :: '3' :: ' ' :: pyStripChars aft)) = pyWords text.data := by
        rw [pyWords_assemble_nometric, pyWords_pyStripChars, pyWords_pyStripChars, hwords]
      rw [hwcalc]

/-- C3 witness: the round trip on the canonical multi-token example. -/
theorem claim_C3_reconstruction_witness :
    normalizeWs (reconcat ⟨some "Widget Pro", some "5K", some 5000, some "A tool"⟩) =
      normalizeWs "Widget Pro 5K 1233 A tool" :=
  (claim_C3_reconstruction "Widget Pro 5K 1233 A tool" ("Widget Pro 5K".data)
    ("A tool".data) ⟨some "Widget Pro", some "5K", some 5000, some "A tool"⟩
    (by decide) (by decide) (Or.inr (by decide))).1

/-! ### Lemmas about the crawl controller -/

/-- Records emitted by the per-anchor loop carry URLs that were unseen on
entry, are pairwise distinct, and are all recorded in the final seen-set,
which extends the initial one. -/
theorem processAnchors_seen (resolve : String → String)
    (enrich : Option String → Option EnrichData) (slug : String) :
    ∀ anchors seen ts seen',
      processAnchors resolve enrich slug anchors seen = .ok (ts, seen') →
      (∀ t ∈ ts, t.url ∉ seen) ∧ (ts.map ToolRecord.url).Nodup ∧
      (∀ u, u ∈ seen → u ∈ seen') ∧ (∀ t ∈ ts, t.url ∈ seen') := by
  intro anchors
  induction anchors with
  | nil =>
    intro seen ts seen' h
    rw [processAnchors] at h
    simp only [Except.ok.injEq, Prod.mk.injEq] at h
    obtain ⟨h1, h2⟩ := h
    subst h1 h2
    simp
  | cons a rest ih =>
    intro seen ts seen' h
    rw [processAnchors] at h
    rcases hp : parse_category_list_item a.text with _ | p <;> simp only [hp] at h
    · exact absurd h (by simp)
    · by_cases hmem : make_full_url resolve a.href ∈ seen
      · rw [if_pos hmem] at h
        exact ih seen ts seen' h
      · rw [if_neg hmem] at h
        rcases hrec : processAnchors resolve enrich slug rest
            (make_full_url resolve a.href :: seen) with e | ⟨ts1, seen1⟩ <;>
          simp only [hrec] at h
        · exact absurd h (by simp)
        · simp only [Except.ok.injEq, Prod.mk.injEq] at h
          obtain ⟨hts, hseen⟩ := h
          subst hts hseen
          obtain ⟨ih1, ih2, ih3, ih4⟩ := ih _ ts1 _ hrec
          refine ⟨?_, ?_, ?_, ?_⟩
          · intro t ht
            rcases List.mem_cons.mp ht with ht1 | ht1
            · subst ht1
              exact hmem
            · intro hcon
              exact ih1 t ht1 (List.mem_cons_of_mem _ hcon)
          · rw [List.map_cons, List.nodup_cons]
            refine ⟨?_, ih2⟩
            intro hcon
            obtain ⟨t, ht, hturl⟩ := List.mem_map.mp hcon
            exact ih1 t ht (by rw [hturl]; exact List.mem_cons_self _ _)
          · intro u hu
            exact ih3 u (List.mem_cons_of_mem _ hu)
          · intro t ht
            rcases List.mem_cons.mp ht with ht1 | ht1
            · subst ht1
              exact ih3 _ (List.mem_cons_self _ _)
            · exact ih4 t ht1

/-- The page scrape preserves the same seen-set discipline. -/
theorem scrape_category_page_seen (resolve : String → String)
    (enrich : Option String → Option EnrichData) (slug : String) (pr : PageResult) :
    ∀ seen ts seen',
      scrape_category_page resolve enrich slug pr seen = .ok (ts, seen') →
      (∀ t ∈ ts, t.url ∉ seen) ∧ (ts.map ToolRecord.url).Nodup ∧
      (∀ u, u ∈ seen → u ∈ seen') ∧ (∀ t ∈ ts, t.url ∈ seen') := by
  intro seen ts seen' h
  rcases pr with _ | _ | anchors
  · exact absurd h (by simp [scrape_category_page])
  · rw [scrape_category_page] at h
    simp only [Except.ok.injEq, Prod.mk.injEq] at h
    obtain ⟨h1, h2⟩ := h
    subst h1 h2
    simp
  · exact processAnchors_seen resolve enrich slug anchors seen ts seen' h

/-- Gluing one page's records to a crawl remainder whose URLs avoid the
grown seen-set keeps URLs pairwise distinct and new relative to the
initial seen-set. -/
theorem combine_urls (X R : List ToolRecord) (seen seenX : List (Option String))
    (hXn : (X.map ToolRecord.url).Nodup)
    (hXold : ∀ t ∈ X, t.url ∉ seen)
    (hXin : ∀ t ∈ X, t.url ∈ seenX)
    (hgrow : ∀ u, u ∈ seen → u ∈ seenX)
    (hRn : (R.map ToolRecord.url).Nodup)
    (hRnew : ∀ t ∈ R, t.url ∉ seenX) :
    ((X ++ R).map ToolRecord.url).Nodup ∧ ∀ t ∈ X ++ R, t.url ∉ seen := by
  constructor
  · rw [List.map_append, List.nodup_append]
    refine ⟨hXn, hRn, ?_⟩
    intro u hu1 hu2
    obtain ⟨t1, ht1, hu1'⟩ := List.mem_map.mp hu1
    obtain ⟨t2, ht2, hu2'⟩ := List.mem_map.mp hu2
    exact hRnew t2 ht2 (by rw [hu2', ← hu1']; exact hXin t1 ht1)
  · intro t ht
    rcases List.mem_append.mp ht with ht1 | ht1
    · exact hXold t ht1
    · intro hcon
      exact hRnew t ht1 (hgrow _ hcon)

/-- `base_url` never equals its own page-1 URL (it is seven characters
shorter). -/
theorem base_ne_pageUrl1 (base : String) : base ≠ pageUrl base 1 := by
  intro h
  have hl := congrArg String.length h
  rw [pageUrl, String.length_append, String.length_append] at hl
  have h6 : ("?page=" : String).length = 6 := rfl
  have h1 : (toString (1 : Nat)).length = 1 := rfl
  omega

/-- Loop step: a page with entries appends them, requests the page URL,
and continues with the next page. -/
theorem crawlLoop_step_cont (fetch : String → PageResult) (resolve : String → String)
    (enrich : Option String → Option EnrichData) (slug base : String)
    (fuel page : Nat) (seen : List (Option String)) (r : List ToolRecord)
    (s : List (Option String))
    (h : scrape_category_page resolve enrich slug (fetch (pageUrl base page)) seen =
      .ok (r, s))
    (hne : r ≠ []) :
    crawlLoop fetch resolve enrich slug base (fuel + 1) page seen =
      (r ++ (crawlLoop fetch resolve enrich slug base fuel (page + 1) s).1,
       pageUrl base page :: (crawlLoop fetch resolve enrich slug base fuel (page + 1) s).2) := by
  rw [crawlLoop]
  simp only [h, if_neg hne]

/-- Loop step: a page after page 1 with zero new entries terminates. -/
theorem crawlLoop_step_stop (fetch : String → PageResult) (resolve : String → String)
    (enrich : Option String → Option EnrichData) (slug base : String)
    (fuel page : Nat) (seen s : List (Option String)) (hpage : page ≠ 1)
    (h : scrape_category_page resolve enrich slug (fetch (pageUrl base page)) seen =
      .ok ([], s)) :
    crawlLoop fetch resolve enrich slug base (fuel + 1) page seen =
      ([], [pageUrl base page]) := by
  rw [crawlLoop]
  simp [h, hpage]

/-- Loop step: a raised page fetch breaks the loop at once. -/
theorem crawlLoop_step_error (fetch : String → PageResult) (resolve : String → String)
    (enrich : Option String → Option EnrichData) (slug base : String)
    (fuel page : Nat) (seen : List (Option String))
    (h : scrape_category_page resolve enrich slug (fetch (pageUrl base page)) seen =
      .error ()) :
    crawlLoop fetch resolve enrich slug base (fuel + 1) page seen =
      ([], [pageUrl base page]) := by
  rw [crawlLoop]
  simp only [h]

/-- Loop step: an empty page 1 followed by a successful non-empty root
fallback captures the fallback entries and continues with page 2. -/
theorem crawlLoop_step_fallback_cont (fetch : String → PageResult)
    (resolve : String → String) (enrich : Option String → Option EnrichData)
    (slug base : String) (fuel : Nat) (seen s1 s2 : List (Option String))
    (rf : List ToolRecord)
    (h1 : scrape_category_page resolve enrich slug (fetch (pageUrl base 1)) seen =
      .ok ([], s1))
    (hfb : scrape_category_page resolve enrich slug (fetch base) s1 = .ok (rf, s2))
    (hne : rf ≠ []) :
    crawlLoop fetch resolve enrich slug base (fuel + 1) 1 seen =
      (rf ++ (crawlLoop fetch resolve enrich slug base fuel 2 s2).1,
       pageUrl base 1 :: base :: (crawlLoop fetch resolve enrich slug base fuel 2 s2).2) := by
  rw [crawlLoop]
  simp [h1, hfb, hne, base_ne_pageUrl1 base]

/-- Loop step: an empty page 1 whose root fallback also yields nothing
(or raises) terminates after the two requests. -/
theorem crawlLoop_step_fallback_stop (fetch : String → PageResult)
    (resolve : String → String) (enrich : Option String → Option EnrichData)
    (slug base : String) (fuel : Nat) (seen s1 : List (Option String))
    (h1 : scrape_category_page resolve enrich slug (fetch (pageUrl base 1)) seen =
      .ok ([], s1))
    (hfb : ∀ rf s2, scrape_category_page resolve enrich slug (fetch base) s1 =
      .ok (rf, s2) → rf = []) :
    crawlLoop fetch resolve enrich slug base (fuel + 1) 1 seen =
      ([], [pageUrl base 1, base]) := by
  rw [crawlLoop]
  simp only [h1, if_pos rfl]
  rcases hf : scrape_category_page resolve enrich slug (fetch base) s1 with e | ⟨rf, s2⟩
  · simp [hf, base_ne_pageUrl1 base]
  · simp [hf, hfb rf s2 hf, base_ne_pageUrl1 base]

/-- Across the whole pagination loop, emitted URLs are pairwise distinct
and never in the seen-set the loop started from. -/
theorem crawlLoop_urls (fetch : String → PageResult) (resolve : String → String)
    (enrich : Option String → Option EnrichData) (slug base : String) :
    ∀ fuel page seen,
      (((crawlLoop fetch resolve enrich slug base fuel page seen).1.map
        ToolRecord.url)).Nodup ∧
      ∀ t ∈ (crawlLoop fetch resolve enrich slug base fuel page seen).1,
        t.url ∉ seen := by
  intro fuel
  induction fuel with
  | zero =>
    intro page seen
    simp [crawlLoop]
  | succ fuel ih =>
    intro page seen
    rcases hpg : scrape_category_page resolve enrich slug (fetch (pageUrl base page))
        seen with e | ⟨pageTools, seen1⟩
    · have he : scrape_category_page resolve enrich slug (fetch (pageUrl base page))
          seen = .error () := by
        rcases e
        exact hpg
      rw [crawlLoop_step_error fetch resolve enrich slug base fuel page seen he]
      simp
    · obtain ⟨hp1, hp2, hp3, hp4⟩ :=
        scrape_category_page_seen resolve enrich slug _ seen pageTools seen1 hpg
      by_cases hempty : pageTools = []
      · subst hempty
        by_cases hpage : page = 1
        · subst hpage
          rcases hfb : scrape_category_page resolve enrich slug (fetch base) seen1
              with e | ⟨fbTools, seen2⟩
          · have hstop := crawlLoop_step_fallback_stop fetch resolve enrich slug base
              fuel seen seen1 hpg (by intro rf s2 hcon; rw [hfb] at hcon; cases hcon)
            rw [hstop]
            simp
          · obtain ⟨hf1, hf2, hf3, hf4⟩ :=
              scrape_category_page_seen resolve enrich slug _ seen1 fbTools seen2 hfb
            by_cases hfbe : fbTools = []
            · have hstop := crawlLoop_step_fallback_stop fetch resolve enrich slug base
                fuel seen seen1 hpg (by
                  intro rf s2 hcon
                  rw [hfb] at hcon
                  simp only [Except.ok.injEq, Prod.mk.injEq] at hcon
                  rw [← hcon.1, hfbe])
              rw [hstop]
              simp
            · have hcont := crawlLoop_step_fallback_cont fetch resolve enrich slug base
                fuel seen seen1 seen2 fbTools hpg hfb hfbe
              rw [hcont]
              obtain ⟨ihn, ihs⟩ := ih 2 seen2
              exact combine_urls fbTools _ seen seen2 hf2
                (fun t ht hc => hf1 t ht (hp3 _ hc)) hf4
                (fun u hu => hf3 u (hp3 u hu)) ihn ihs
        · have hstop := crawlLoop_step_stop fetch resolve enrich slug base fuel page
            seen seen1 hpage hpg
          rw [hstop]
          simp
      · have hcont := crawlLoop_step_cont fetch resolve enrich slug base fuel page
          seen pageTools seen1 hpg hempty
        rw [hcont]
        obtain ⟨ihn, ihs⟩ := ih (page + 1) seen1
        exact combine_urls pageTools _ seen seen1 hp2 hp1 hp4 hp3 ihn ihs

/-! ### Claim theorems for the crawl controller -/

deriving instance DecidableEq for Except

/-- Stub URL resolver (the collaborator of §6; resolves path-absolute
hrefs against the site base). -/
def res0 : String → String := fun h => "https://aitoolfor.org" ++ h

/-- Stub enrichment collaborator: every tool-page fetch fails (the
failure is swallowed; records are emitted without enrichment fields). -/
def enr0 : Option String → Option EnrichData := fun _ => none

/-- C2 (scenario plus general termination step): a listing source with new
entries on pages 1-3 and none on page 4 yields each page's entries exactly
once and requests exactly pages 1-4; and in general any page other than
page 1 yielding zero new entries terminates the category crawl at once. -/
theorem claim_C2_pagination_termination :
    (∀ (fetch : String → PageResult) (resolve : String → String)
        (enrich : Option String → Option EnrichData) (slug base : String)
        (r1 r2 r3 : List ToolRecord) (s1 s2 s3 s4 : List (Option String)) (fuel : Nat),
      scrape_category_page resolve enrich slug (fetch (pageUrl base 1)) [] = .ok (r1, s1) →
      r1 ≠ [] →
      scrape_category_page resolve enrich slug (fetch (pageUrl base 2)) s1 = .ok (r2, s2) →
      r2 ≠ [] →
      scrape_category_page resolve enrich slug (fetch (pageUrl base 3)) s2 = .ok (r3, s3) →
      r3 ≠ [] →
      scrape_category_page resolve enrich slug (fetch (pageUrl base 4)) s3 = .ok ([], s4) →
      scrape_category_with_pagination fetch resolve enrich ⟨slug, base⟩ (fuel + 4) =
        (r1 ++ r2 ++ r3,
         [pageUrl base 1, pageUrl base 2, pageUrl base 3, pageUrl base 4])) ∧
    (∀ (fetch : String → PageResult) (resolve : String → String)
        (enrich : Option String → Option EnrichData) (slug base : String)
        (page fuel : Nat) (seen s : List (Option String)), page ≠ 1 →
      scrape_category_page resolve enrich slug (fetch (pageUrl base page)) seen =
        .ok ([], s) →
      crawlLoop fetch resolve enrich slug base (fuel + 1) page seen =
        ([], [pageUrl base page])) := by
  constructor
  · intro fetch resolve enrich slug base r1 r2 r3 s1 s2 s3 s4 fuel h1 hne1 h2 hne2 h3 hne3 h4
    have E4 : crawlLoop fetch resolve enrich slug base (fuel + 1) 4 s3 =
        ([], [pageUrl base 4]) :=
      crawlLoop_step_stop fetch resolve enrich slug base fuel 4 s3 s4 (by omega) h4
    have E3 : crawlLoop fetch resolve enrich slug base (fuel + 2) 3 s2 =
        (r3, [pageUrl base 3, pageUrl base 4]) := by
      have h := crawlLoop_step_cont fetch resolve enrich slug base (fuel + 1) 3 s2 r3 s3
        h3 hne3
      rw [E4] at h
      simpa using h
    have E2 : crawlLoop fetch resolve enrich slug base (fuel + 3) 2 s1 =
        (r2 ++ r3, [pageUrl base 2, pageUrl base 3, pageUrl base 4]) := by
      have h := crawlLoop_step_cont fetch resolve enrich slug base (fuel + 2) 2 s1 r2 s2
        h2 hne2
      rw [E3] at h
      exact h
    have E1 : crawlLoop fetch resolve enrich slug base (fuel + 4) 1 [] =
        (r1 ++ (r2 ++ r3),
         [pageUrl base 1, pageUrl base 2, pageUrl base 3, pageUrl base 4]) := by
      have h := crawlLoop_step_cont fetch resolve enrich slug base (fuel + 3) 1 [] r1 s1
        h1 hne1
      rw [E2] at h
      exact h
    rw [scrape_category_with_pagination, E1, List.append_assoc]
  · intro fetch resolve enrich slug base page fuel seen s hpage h
    exact crawlLoop_step_stop fetch resolve enrich slug base fuel page seen s hpage h

/-- Three-page stub listing source for the C2 witness. -/
def fetchC2 : String → PageResult := fun u =>
  if u = "https://s/c/?page=1" then .entries [⟨"/t1", "T1 1233 a"⟩]
  else if u = "https://s/c/?page=2" then .entries [⟨"/t2", "T2 1233 b"⟩]
  else if u = "https://s/c/?page=3" then .entries [⟨"/t3", "T3 1233 c"⟩]
  else .noList

/-- C2 witness: the three-page stub emits the three records once each and
requests exactly pages 1-4. -/
theorem claim_C2_pagination_termination_witness :
    scrape_category_with_pagination fetchC2 res0 enr0 ⟨"c", "https://s/c/"⟩ 5 =
      ([⟨"c", some "T1", none, none, some "a", some "https://aitoolfor.org/t1",
         "T1 1233 a", none⟩,
        ⟨"c", some "T2", none, none, some "b", some "https://aitoolfor.org/t2",
         "T2 1233 b", none⟩,
        ⟨"c", some "T3", none, none, some "c", some "https://aitoolfor.org/t3",
         "T3 1233 c", none⟩],
       ["https://s/c/?page=1", "https://s/c/?page=2", "https://s/c/?page=3",
        "https://s/c/?page=4"]) := by
  have h := claim_C2_pagination_termination.1 fetchC2 res0 enr0 "c" "https://s/c/"
    [⟨"c", some "T1", none, none, some "a", some "https://aitoolfor.org/t1",
      "T1 1233 a", none⟩]
    [⟨"c", some "T2", none, none, some "b", some "https://aitoolfor.org/t2",
      "T2 1233 b", none⟩]
    [⟨"c", some "T3", none, none, some "c", some "https://aitoolfor.org/t3",
      "T3 1233 c", none⟩]
    [some "https://aitoolfor.org/t1"]
    [some "https://aitoolfor.org/t2", some "https://aitoolfor.org/t1"]
    [some "https://aitoolfor.org/t3", some "https://aitoolfor.org/t2",
     some "https://aitoolfor.org/t1"]
    [some "https://aitoolfor.org/t3", some "https://aitoolfor.org/t2",
     some "https://aitoolfor.org/t1"]
    1 (by decide) (by decide) (by decide) (by decide) (by decide) (by decide) (by decide)
  rw [h]
  rfl

/-- C6: an empty paginated page 1 with a non-empty unparameterized root
triggers exactly one fallback fetch of the root, captures its entries as
page 1's result, and continues with page 2. -/
theorem claim_C6_page1_fallback
    (fetch : String → PageResult) (resolve : String → String)
    (enrich : Option String → Option EnrichData) (slug base : String)
    (rf : List ToolRecord) (s1 s2 s3 : List (Option String)) (fuel : Nat)
    (h1 : scrape_category_page resolve enrich slug (fetch (pageUrl base 1)) [] =
      .ok ([], s1))
    (hfb : scrape_category_page resolve enrich slug (fetch base) s1 = .ok (rf, s2))
    (hne : rf ≠ [])
    (h2 : scrape_category_page resolve enrich slug (fetch (pageUrl base 2)) s2 =
      .ok ([], s3)) :
    scrape_category_with_pagination fetch resolve enrich ⟨slug, base⟩ (fuel + 2) =
      (rf, [pageUrl base 1, base, pageUrl base 2]) := by
  have E2 : crawlLoop fetch resolve enrich slug base (fuel + 1) 2 s2 =
      ([], [pageUrl base 2]) :=
    crawlLoop_step_stop fetch resolve enrich slug base fuel 2 s2 s3 (by omega) h2
  have E1 := crawlLoop_step_fallback_cont fetch resolve enrich slug base (fuel + 1)
    [] s1 s2 rf h1 hfb hne
  rw [E2] at E1
  rw [scrape_category_with_pagination]
  rw [E1]
  simp

/-- Root-only stub listing source for the C6 witness. -/
def fetchC6 : String → PageResult := fun u =>
  if u = "https://s/c/" then .entries [⟨"/r", "R 1233 z"⟩] else .noList

/-- C6 witness: with a source that only answers the bare root URL, the
crawl captures the root entries and requests page 1, the root, page 2. -/
theorem claim_C6_page1_fallback_witness :
    scrape_category_with_pagination fetchC6 res0 enr0 ⟨"c", "https://s/c/"⟩ 5 =
      ([⟨"c", some "R", none, none, some "z", some "https://aitoolfor.org/r",
         "R 1233 z", none⟩],
       ["https://s/c/?page=1", "https://s/c/", "https://s/c/?page=2"]) := by
  have h := claim_C6_page1_fallback fetchC6 res0 enr0 "c" "https://s/c/"
    [⟨"c", some "R", none, none, some "z", some "https://aitoolfor.org/r",
      "R 1233 z", none⟩]
    [] [some "https://aitoolfor.org/r"] [some "https://aitoolfor.org/r"]
    3 (by decide) (by decide) (by decide) (by decide)
  rw [h]
  decide

/-- Two-category stub sharing one tool URL, for the C7 cross-category
conjunct. -/
def fetchC7 : String → PageResult := fun u =>
  if u = "https://s/c1/?page=1" then .entries [⟨"/tools/t/", "T 1233 d"⟩]
  else if u = "https://s/c2/?page=1" then .entries [⟨"/tools/t/", "T 1233 d"⟩]
  else .noList

/-- C7: within one category crawl the emitted URLs are pairwise distinct
(for any listing source, resolver, enrichment oracle, category and fuel);
two same-category entries with identical resolved URLs produce exactly
the first entry's record; and the same URL may reappear in records of
different categories — the per-category seen-set is fresh, so there is no
global dedupe. -/
theorem claim_C7_url_dedup :
    (∀ (fetch : String → PageResult) (resolve : String → String)
        (enrich : Option String → Option EnrichData) (cat : Category) (fuel : Nat),
      (((scrape_category_with_pagination fetch resolve enrich cat fuel).1.map
        ToolRecord.url)).Nodup) ∧
    (scrape_category_page res0 enr0 "c"
        (.entries [⟨"/a", "X 1233 d"⟩, ⟨"/a", "Y 1233 e"⟩]) [] =
      .ok ([⟨"c", some "X", none, none, some "d", some "https://aitoolfor.org/a",
            "X 1233 d", none⟩],
           [some "https://aitoolfor.org/a"])) ∧
    (scrape_all fetchC7 res0 enr0
        [⟨"c1", "https://s/c1/"⟩, ⟨"c2", "https://s/c2/"⟩] 5 =
      [⟨"c1", some "T", none, none, some "d", some "https://aitoolfor.org/tools/t/",
        "T 1233 d", none⟩,
       ⟨"c2", some "T", none, none, some "d", some "https://aitoolfor.org/tools/t/",
        "T 1233 d", none⟩]) := by
  refine ⟨?_, by decide, by decide⟩
  intro fetch resolve enrich cat fuel
  exact (crawlLoop_urls fetch resolve enrich cat.slug cat.url fuel 1 []).1

/-- C8 counterexample: an anchor with empty visible text is not skipped —
the page scrape emits a record for it (name and description `None`, raw
text empty), adds its URL to the seen-set, and counts it as an entry
found on the page. -/
theorem claim_C8_counterexample :
    scrape_category_page res0 enr0 "c" (.entries [⟨"/x", ""⟩]) [] =
      .ok ([⟨"c", none, none, none, none, some "https://aitoolfor.org/x", "", none⟩],
           [some "https://aitoolfor.org/x"]) ∧
    scrape_category_page res0 enr0 "c" (.entries [⟨"/x", ""⟩]) [] ≠
      .ok ([], []) := by
  exact ⟨by decide, by decide⟩

/-- C8 (amended): the per-page entry loop does not skip anchors with
empty visible text: for any resolver, enrichment oracle, slug and
seen-set, an unseen empty-text anchor produces a ToolRecord whose parsed
fields are all `None`, its resolved URL is added to the seen-set, and it
counts toward the entries found on this page. -/
theorem claim_C8_empty_text_processed (resolve : String → String)
    (enrich : Option String → Option EnrichData) (slug href : String)
    (seen : List (Option String)) (hhref : href ≠ "")
    (hnew : some (resolve href) ∉ seen) :
    processAnchors resolve enrich slug [⟨href, ""⟩] seen =
      .ok ([⟨slug, none, none, none, none, some (resolve href), "",
            enrich (some (resolve href))⟩], some (resolve href) :: seen) := by
  have hp : parse_category_list_item "" = some ⟨none, none, none, none⟩ := by decide
  have hurl : make_full_url resolve href = some (resolve href) := by
    rw [make_full_url, if_neg hhref]
  rw [processAnchors]
  simp only [hp, hurl, if_neg hnew, processAnchors]

/-- C8 witness: the empty-text anchor `/x` yields a record. -/
theorem claim_C8_empty_text_processed_witness :
    processAnchors res0 enr0 "c" [⟨"/x", ""⟩] [] =
      .ok ([⟨"c", none, none, none, none, some (res0 "/x"), "",
            enr0 (some (res0 "/x"))⟩], some (res0 "/x") :: []) :=
  claim_C8_empty_text_processed res0 enr0 "c" "/x" [] (by decide) (by simp)

/-- Listing source whose page-1 fetch exhausts retries while the bare
root URL has entries, for the C9 counterexample. -/
def fetchC9a : String → PageResult := fun u =>
  if u = "https://s/c/?page=1" then .fetchError
  else if u = "https://s/c/" then .entries [⟨"/t", "T 1233 d"⟩]
  else .noList

/-- C9 counterexample: when the page-1 listing fetch fails, the crawl
stops at once with no records and only the page-1 request — the root
fallback is never attempted even though the root has entries (scraping
the root directly would succeed with one record). -/
theorem claim_C9_counterexample :
    scrape_category_with_pagination fetchC9a res0 enr0 ⟨"c", "https://s/c/"⟩ 5 =
      ([], ["https://s/c/?page=1"]) ∧
    scrape_category_page res0 enr0 "c" (fetchC9a "https://s/c/") [] =
      .ok ([⟨"c", some "T", none, none, some "d", some "https://aitoolfor.org/t",
            "T 1233 d", none⟩], [some "https://aitoolfor.org/t"]) ∧
    ("https://s/c/" : String) ∉ ["https://s/c/?page=1"] := by
  exact ⟨by decide, by decide, by decide⟩

/-- C9 (amended): a listing-page fetch that exhausts its retries (or any
exception from the page scrape) terminates the category crawl immediately
after logging, returning the entries accumulated so far instead of
propagating — but it is not folded into the zero-entry termination
policy: the page-1 root fallback is not attempted on a fetch failure. -/
theorem claim_C9_fetch_error_stops (fetch : String → PageResult)
    (resolve : String → String) (enrich : Option String → Option EnrichData)
    (slug base : String) (r1 : List ToolRecord) (s1 : List (Option String))
    (fuel : Nat)
    (h1 : scrape_category_page resolve enrich slug (fetch (pageUrl base 1)) [] =
      .ok (r1, s1))
    (hne : r1 ≠ [])
    (h2 : fetch (pageUrl base 2) = .fetchError) :
    scrape_category_with_pagination fetch resolve enrich ⟨slug, base⟩ (fuel + 2) =
      (r1, [pageUrl base 1, pageUrl base 2]) := by
  have E2 : crawlLoop fetch resolve enrich slug base (fuel + 1) 2 s1 =
      ([], [pageUrl base 2]) := by
    apply crawlLoop_step_error
    rw [h2]
    rfl
  have E1 := crawlLoop_step_cont fetch resolve enrich slug base (fuel + 1) 1 [] r1 s1
    h1 hne
  rw [E2] at E1
  rw [scrape_category_with_pagination, E1]
  simp

/-- Listing source with a good page 1 and a failing page 2, for the C9
witness. -/
def fetchC9b : String → PageResult := fun u =>
  if u = "https://s/c/?page=1" then .entries [⟨"/t1", "T1 1233 a"⟩] else .fetchError

/-- C9 witness: the failing page-2 fetch stops the crawl with page 1's
record retained. -/
theorem claim_C9_fetch_error_stops_witness :
    scrape_category_with_pagination fetchC9b res0 enr0 ⟨"c", "https://s/c/"⟩ 5 =
      ([⟨"c", some "T1", none, none, some "a", some "https://aitoolfor.org/t1",
         "T1 1233 a", none⟩],
       ["https://s/c/?page=1", "https://s/c/?page=2"]) := by
  have h := claim_C9_fetch_error_stops fetchC9b res0 enr0 "c" "https://s/c/"
    [⟨"c", some "T1", none, none, some "a", some "https://aitoolfor.org/t1",
      "T1 1233 a", none⟩]
    [some "https://aitoolfor.org/t1"] 3 (by decide) (by decide) (by decide)
  rw [h]
  decide

end Scraper














